import Mathlib

/-!
Verification development for the singularity-resources repository.

The repository consists of two Node.js scripts:
* a core-update script (embedded in the repository README) that parses upstream
  release asset filenames into canonical platform descriptors, repackages the
  binaries via an external shell pipeline, and merges per-channel manifests
  gated on the upstream release tag, and
* scripts/update_rules.js, which fetches upstream commit metadata with a
  bounded retry policy and builds deterministic, sorted rule indices from a
  flat file-tree listing.

The shallow embedding below models strings as their character lists where
character-level operations matter (splitting on a delimiter, substring
search, suffix tests), exactly mirroring the JavaScript string operations
used by the source.  Shell and network effects are modelled as explicit
oracle functions (a per-asset pipeline record, a response schedule for the
retrying fetch); a JavaScript exception escaping a loop is modelled with
Except.  JavaScript string comparison localeCompare is modelled as
lexicographic comparison on code points, which coincides with it on the
ASCII names the scripts handle.
-/

/-- Character list, the representation used for JavaScript strings whose
characters the scripts inspect. -/
abbrev Str := List Char

/-- Split a character list at every occurrence of the separator, keeping empty
pieces, as JavaScript String.prototype.split with a single-character
separator does.  The empty input yields one empty piece. -/
def splitOnChar (sep : Char) : Str → List Str
  | [] => [[]]
  | c :: rest =>
    let r := splitOnChar sep rest
    if c = sep then [] :: r
    else
      match r with
      | [] => [[c]]
      | h :: t => (c :: h) :: t

/-- Join a list of pieces with a single-character separator, as
JavaScript Array.prototype.join does. -/
def joinSep (sep : Char) : List Str → Str
  | [] => []
  | [t] => t
  | t :: ts => t ++ sep :: joinSep sep ts

/-- Bool test: does the first list occur as a prefix of the second?
Models JavaScript String.prototype.startsWith. -/
def startsW : Str → Str → Bool
  | [], _ => true
  | _ :: _, [] => false
  | a :: as_, b :: bs => a == b && startsW as_ bs

/-- Bool test: does the first list occur as a suffix of the second?
Models JavaScript String.prototype.endsWith. -/
def endsW (s l : Str) : Bool :=
  decide (s.length ≤ l.length) && (l.drop (l.length - s.length) == s)

/-- Bool test: does the needle occur as a contiguous subsequence of the
haystack?  Models JavaScript String.prototype.includes. -/
def containsSeq (needle : Str) : Str → Bool
  | [] => needle.isEmpty
  | c :: rest => startsW needle (c :: rest) || containsSeq needle rest

/-- First index whose element satisfies the predicate, if any.
Models JavaScript Array.prototype.findIndex. -/
def findIdxO {α : Type} (P : α → Bool) : List α → Option Nat
  | [] => none
  | a :: l => if P a then some 0 else (findIdxO P l).map (· + 1)

/-- Lexicographic comparison on character lists: the model of the
localeCompare-based comparators of the scripts (they only ever see ASCII). -/
def lexLe : Str → Str → Bool
  | [], _ => true
  | _ :: _, [] => false
  | a :: as_, b :: bs => if a < b then true else if b < a then false else lexLe as_ bs

/-- Insert an element into a list, in front of the first element the
comparison places it at or before (stable insertion). -/
def insertLe {α : Type} (le : α → α → Bool) (a : α) : List α → List α
  | [] => [a]
  | b :: bs => if le a b then a :: b :: bs else b :: insertLe le a bs

/-- Stable insertion sort; models the (stable) Array.prototype.sort of the
scripts under the same comparator. -/
def sortLe {α : Type} (le : α → α → Bool) : List α → List α
  | [] => []
  | a :: as_ => insertLe le a (sortLe le as_)

/-- First value stored under a key in an association list; models reading a
JavaScript object property / Map.get. -/
def getKey {β : Type} (m : List (Str × β)) (k : Str) : Option β :=
  match m with
  | [] => none
  | (k', v) :: r => if k' = k then some v else getKey r k

/-- Set a key in an association list: overwrite in place if the key is
present, append at the end otherwise; models JavaScript object property
assignment / Map.set, which preserve first-insertion key order. -/
def setKey {β : Type} (m : List (Str × β)) (k : Str) (v : β) : List (Str × β) :=
  match m with
  | [] => [(k, v)]
  | (k', v') :: r => if k' = k then (k, v) :: r else (k', v') :: setKey r k v

/-! ## Basic lemmas about the string helpers -/

theorem startsW_append (p r : Str) : startsW p (p ++ r) = true := by
  induction p with
  | nil => rfl
  | cons a as_ ih => simp [startsW, ih]

theorem endsW_append (t s : Str) : endsW s (t ++ s) = true := by
  simp [endsW]

theorem endsW_length_le {s l : Str} (h : endsW s l = true) : s.length ≤ l.length := by
  simp [endsW] at h
  exact h.1

theorem endsW_drop {s l : Str} (h : endsW s l = true) :
    l.drop (l.length - s.length) = s := by
  simp [endsW] at h
  exact h.2

/-- Two suffixes of the same list: the shorter one is the tail end of the
longer one. -/
theorem suffix_suffix {s s' l : Str} (h1 : endsW s l = true) (h2 : endsW s' l = true)
    (hl : s.length ≤ s'.length) : s = s'.drop (s'.length - s.length) := by
  have d1 := endsW_drop h1
  have d2 := endsW_drop h2
  have hs' := endsW_length_le h2
  have : l.drop (l.length - s.length) =
      (l.drop (l.length - s'.length)).drop (s'.length - s.length) := by
    rw [List.drop_drop]
    congr 1
    omega
  rw [d1, d2] at this
  exact this

theorem joinSep_eq_nil_iff {sep : Char} {ts : List Str} (h : ∀ t ∈ ts, t ≠ []) :
    joinSep sep ts = [] ↔ ts = [] := by
  cases ts with
  | nil => simp [joinSep]
  | cons t ts' =>
    cases ts' with
    | nil =>
      simp only [joinSep]
      constructor
      · intro he
        exact absurd he (h t (by simp))
      · intro he
        cases he
    | cons u us =>
      simp only [joinSep]
      constructor
      · intro he
        cases t <;> simp_all
      · intro he
        cases he

theorem findIdxO_first {α : Type} (P : α → Bool) (pre : List α) (x : α) (rest : List α)
    (hpre : ∀ p ∈ pre, P p = false) (hx : P x = true) :
    findIdxO P (pre ++ x :: rest) = some pre.length := by
  induction pre with
  | nil => simp [findIdxO, hx]
  | cons a as_ ih =>
    have ha : P a = false := hpre a (by simp)
    simp only [List.cons_append, findIdxO, ha, Bool.false_eq_true, if_false, List.append_eq]
    rw [ih (fun p hp => hpre p (by simp [hp]))]
    simp

example : splitOnChar '-' "a-bc--d".toList = ["a".toList, "bc".toList, [], "d".toList] := by decide
example : joinSep '-' ["a".toList, "bc".toList] = "a-bc".toList := by decide
example : containsSeq "leg".toList "xx-legacy".toList = true := by decide
example : endsW ".zip".toList "a.zip".toList = true := by decide

/-! ## The asset-name parser (core-update script, function parseAsset) -/

/-- Canonical platform descriptor returned by the asset-name parser. -/
structure AssetInfo where
  os : String
  arch : String
  filename : String
deriving DecidableEq, Repr

/-- The OS vocabulary the parser scans the filename tokens for. -/
def osList : List Str := ["windows".toList, "darwin".toList, "linux".toList, "freebsd".toList]

/-- The rejection test performed before any parsing: mobile-platform markers,
SBOM marker, package-manager file extensions. -/
def rejectName (n : Str) : Bool :=
  containsSeq "android".toList n || containsSeq "ios".toList n || containsSeq "sbom".toList n ||
  endsW ".deb".toList n || endsW ".rpm".toList n || endsW ".apk".toList n || endsW ".ipk".toList n

/-- Strip a trailing ".tar.gz" or ".zip"; the regex replace of the source
removes exactly one such suffix at the end of the name. -/
def stripArchiveSfx (l : Str) : Str :=
  if endsW ".tar.gz".toList l then l.take (l.length - 7)
  else if endsW ".zip".toList l then l.take (l.length - 4)
  else l

/-- The asset-name parser: returns a canonical platform descriptor or none.
Mirrors parseAsset of the core-update script step by step: rejection
markers, fixed name stem, recognized archive suffix, split on the dash,
left-to-right OS-token scan, base architecture token, variant
normalization (legacy before softfloat before the verbatim fallback),
and the darwin-to-macos rename. -/
def parseAsset (assetName : String) : Option AssetInfo :=
  let n := assetName.toList
  if rejectName n then none
  else if !(startsW "sing-box-".toList n) then none
  else if !(endsW ".tar.gz".toList n || endsW ".zip".toList n) then none
  else
    let parts := splitOnChar '-' (stripArchiveSfx (n.drop 9))
    match findIdxO (fun p => decide (p ∈ osList)) parts with
    | none => none
    | some osIndex =>
      match parts[osIndex + 1]? with
      | none => none
      | some arch =>
        if arch = [] then none
        else
          let os0 := (parts[osIndex]?).getD []
          let os := if os0 = "darwin".toList then "macos".toList else os0
          let variant := joinSep '-' (parts.drop (osIndex + 2))
          if os ∈ ["windows".toList, "macos".toList, "linux".toList, "freebsd".toList] then
            if variant = [] then some ⟨String.mk os, String.mk arch, assetName⟩
            else if containsSeq "legacy".toList variant then
              some ⟨String.mk os, String.mk (arch ++ "-legacy".toList), assetName⟩
            else if containsSeq "softfloat".toList variant then
              some ⟨String.mk os, String.mk (arch ++ "-softfloat".toList), assetName⟩
            else some ⟨String.mk os, String.mk (arch ++ '-' :: variant), assetName⟩
          else none

example : parseAsset "sing-box-1.12.0-windows-amd64-legacy-windows-7.zip" =
    some ⟨"windows", "amd64-legacy", "sing-box-1.12.0-windows-amd64-legacy-windows-7.zip"⟩ := by decide
example : parseAsset "sing-box-1.12.0-darwin-amd64.zip" =
    some ⟨"macos", "amd64", "sing-box-1.12.0-darwin-amd64.zip"⟩ := by decide
example : parseAsset "sing-box-1.12.0-linux-mips-softfloat.tar.gz" =
    some ⟨"linux", "mips-softfloat", "sing-box-1.12.0-linux-mips-softfloat.tar.gz"⟩ := by decide
example : parseAsset "sing-box-1.12.0-android-arm64.apk" = none := by decide
example : parseAsset "sing-box-1.12.0-linux-armv7.tar.gz" =
    some ⟨"linux", "armv7", "sing-box-1.12.0-linux-armv7.tar.gz"⟩ := by decide

/-- C9: any filename containing a mobile-platform marker (android, ios), the
SBOM marker, or a package-manager-format extension (.deb, .rpm, .apk, .ipk)
makes the asset-name parser return the not-applicable sentinel (none),
regardless of any otherwise valid structure of the name. -/
theorem parseAsset_not_applicable_on_markers (name : String)
    (h : containsSeq "android".toList name.toList = true ∨
         containsSeq "ios".toList name.toList = true ∨
         containsSeq "sbom".toList name.toList = true ∨
         endsW ".deb".toList name.toList = true ∨
         endsW ".rpm".toList name.toList = true ∨
         endsW ".apk".toList name.toList = true ∨
         endsW ".ipk".toList name.toList = true) :
    parseAsset name = none := by
  have hr : rejectName name.toList = true := by
    unfold rejectName
    rcases h with h | h | h | h | h | h | h <;> rw [h] <;> simp
  have hr' : rejectName name.data = true := hr
  unfold parseAsset
  simp [hr']

/-- Witness for C9: a filename with the android marker and otherwise fully
valid structure (stem, OS token, architecture token, archive suffix) is
rejected. -/
theorem parseAsset_not_applicable_on_markers_witness :
    containsSeq "android".toList "sing-box-1.8.0-linux-amd64-android.zip".toList = true ∧
    parseAsset "sing-box-1.8.0-linux-amd64-android.zip" = none :=
  ⟨by decide, parseAsset_not_applicable_on_markers _ (Or.inl (by decide))⟩

theorem stripArchiveSfx_zip (core : Str) : stripArchiveSfx (core ++ ".zip".toList) = core := by
  have hz : endsW ".zip".toList (core ++ ".zip".toList) = true := endsW_append _ _
  have ht : endsW ".tar.gz".toList (core ++ ".zip".toList) = false := by
    cases hc : endsW ".tar.gz".toList (core ++ ".zip".toList) with
    | false => rfl
    | true =>
      have := suffix_suffix hz hc (by decide)
      exact absurd this (by decide)
  unfold stripArchiveSfx
  simp only [ht, Bool.false_eq_true, if_false, hz, if_true]
  have hlen : (core ++ ".zip".toList).length - 4 = core.length := by simp
  rw [hlen]
  exact List.take_left core _

theorem stripArchiveSfx_targz (core : Str) :
    stripArchiveSfx (core ++ ".tar.gz".toList) = core := by
  have ht : endsW ".tar.gz".toList (core ++ ".tar.gz".toList) = true := endsW_append _ _
  unfold stripArchiveSfx
  simp only [ht, if_true]
  have hlen : (core ++ ".tar.gz".toList).length - 7 = core.length := by simp
  rw [hlen]
  exact List.take_left core _

/-- If a list ends with suffix s, it cannot also end with a suffix s' that
disagrees with the tail end of s. -/
theorem endsW_false_of_sfx {l s : Str} (s' : Str) (h : endsW s l = true)
    (hlen : s'.length ≤ s.length) (hne : s' ≠ s.drop (s.length - s'.length)) :
    endsW s' l = false := by
  cases hc : endsW s' l with
  | false => rfl
  | true => exact absurd (suffix_suffix hc h hlen) hne

/-- A name ending in a recognized archive suffix and free of the android,
ios and sbom markers passes the rejection filter. -/
theorem rejectName_false {n : Str} (sfx : Str)
    (hsfx : sfx = ".zip".toList ∨ sfx = ".tar.gz".toList)
    (hend : endsW sfx n = true)
    (hA : containsSeq "android".toList n = false)
    (hI : containsSeq "ios".toList n = false)
    (hS : containsSeq "sbom".toList n = false) : rejectName n = false := by
  have hdeb : endsW ".deb".toList n = false := by
    rcases hsfx with h | h <;> rw [h] at hend <;>
      exact endsW_false_of_sfx _ hend (by decide) (by decide)
  have hrpm : endsW ".rpm".toList n = false := by
    rcases hsfx with h | h <;> rw [h] at hend <;>
      exact endsW_false_of_sfx _ hend (by decide) (by decide)
  have hapk : endsW ".apk".toList n = false := by
    rcases hsfx with h | h <;> rw [h] at hend <;>
      exact endsW_false_of_sfx _ hend (by decide) (by decide)
  have hipk : endsW ".ipk".toList n = false := by
    rcases hsfx with h | h <;> rw [h] at hend <;>
      exact endsW_false_of_sfx _ hend (by decide) (by decide)
  unfold rejectName
  rw [hA, hI, hS, hdeb, hrpm, hapk, hipk]
  rfl

/-- C1: for every asset filename of the canonical form
sing-box-{...}-{os}-{arch}[-{variant-tokens}] with a recognized archive
suffix (.zip or .tar.gz), an os token in the scanned vocabulary (preceded
only by tokens outside that vocabulary), a non-empty arch token, non-empty
variant tokens, and none of the rejection markers of C9, the parser returns
a descriptor whose arch is: the base arch unchanged when no variant tokens
remain after the arch token; base-legacy exactly when the variant string
contains the legacy marker (any trailing tokens allowed); base-softfloat
when it contains the softfloat marker but not legacy; and base-variant
verbatim otherwise — evaluated in that priority order, first match wins.
The os is the os token, with darwin renamed to macos. -/
theorem parseAsset_variant_normalization
    (name : String) (core osTok arch sfx : Str) (pre vtoks : List Str)
    (hn : name.toList = "sing-box-".toList ++ (core ++ sfx))
    (hsfx : sfx = ".zip".toList ∨ sfx = ".tar.gz".toList)
    (hsplit : splitOnChar '-' core = pre ++ osTok :: arch :: vtoks)
    (hos : osTok ∈ osList)
    (hpre : ∀ p ∈ pre, p ∉ osList)
    (harch : arch ≠ [])
    (hvt : ∀ t ∈ vtoks, t ≠ [])
    (hA : containsSeq "android".toList name.toList = false)
    (hI : containsSeq "ios".toList name.toList = false)
    (hS : containsSeq "sbom".toList name.toList = false) :
    parseAsset name = some ⟨
      String.mk (if osTok = "darwin".toList then "macos".toList else osTok),
      String.mk (if vtoks = [] then arch
        else if containsSeq "legacy".toList (joinSep '-' vtoks) = true then
          arch ++ "-legacy".toList
        else if containsSeq "softfloat".toList (joinSep '-' vtoks) = true then
          arch ++ "-softfloat".toList
        else arch ++ '-' :: joinSep '-' vtoks),
      name⟩ := by
  have hend : endsW sfx name.toList = true := by
    rw [hn, ← List.append_assoc]
    exact endsW_append _ _
  have hrej : rejectName name.toList = false := rejectName_false sfx hsfx hend hA hI hS
  have hstart : startsW "sing-box-".toList name.toList = true := by
    rw [hn]
    exact startsW_append _ _
  have harcv : (endsW ".tar.gz".toList name.toList || endsW ".zip".toList name.toList) = true := by
    rcases hsfx with h | h <;> rw [h] at hend <;>
      simp only [hend, Bool.or_true, Bool.true_or]
  have hdrop : name.toList.drop 9 = core ++ sfx := by
    rw [hn]
    have h9 : ("sing-box-".toList).length = 9 := by decide
    rw [← h9]
    exact List.drop_left _ _
  have hstrip : stripArchiveSfx (name.toList.drop 9) = core := by
    rw [hdrop]
    rcases hsfx with h | h <;> rw [h]
    · exact stripArchiveSfx_zip core
    · exact stripArchiveSfx_targz core
  have hparts : splitOnChar '-' (stripArchiveSfx (name.toList.drop 9)) =
      pre ++ osTok :: arch :: vtoks := by rw [hstrip, hsplit]
  have hfind : findIdxO (fun p => decide (p ∈ osList))
      (splitOnChar '-' (stripArchiveSfx (name.toList.drop 9))) = some pre.length := by
    rw [hparts]
    exact findIdxO_first _ pre osTok (arch :: vtoks)
      (fun p hp => decide_eq_false (hpre p hp)) (decide_eq_true hos)
  have hget1 : (splitOnChar '-' (stripArchiveSfx (name.toList.drop 9)))[pre.length + 1]? =
      some arch := by
    rw [hparts, List.getElem?_append_right (by omega)]
    simp
  have hget0 : (splitOnChar '-' (stripArchiveSfx (name.toList.drop 9)))[pre.length]? =
      some osTok := by
    rw [hparts, List.getElem?_append_right (le_refl _)]
    simp
  have hdrop2 : (splitOnChar '-' (stripArchiveSfx (name.toList.drop 9))).drop (pre.length + 2) =
      vtoks := by
    rw [hparts]
    have hsh : pre ++ osTok :: arch :: vtoks = (pre ++ [osTok, arch]) ++ vtoks := by simp
    rw [hsh]
    have hl : (pre ++ [osTok, arch]).length = pre.length + 2 := by simp
    rw [← hl]
    exact List.drop_left _ _
  have hosmem : ((if osTok = "darwin".toList then "macos".toList else osTok) ∈
      ["windows".toList, "macos".toList, "linux".toList, "freebsd".toList]) := by
    simp only [osList, List.mem_cons, List.mem_singleton] at hos
    rcases hos with h | h | h | h | h <;> simp [h]
    cases h
  unfold parseAsset
  simp only [hrej, Bool.false_eq_true, if_false, hstart, Bool.not_true, harcv, hfind, hget1,
    hget0, hdrop2, Option.getD_some]
  rw [if_neg (by simp [harch]), if_pos hosmem]
  by_cases hv : vtoks = []
  · subst hv
    simp [joinSep]
  · have hvar : joinSep '-' vtoks ≠ [] := by
      intro hcon
      exact hv ((joinSep_eq_nil_iff hvt).1 hcon)
    rw [if_neg hvar, if_neg hv]
    split_ifs <;> rfl

/-- Witness for C1: the README's documented example
sing-box-1.12.0-darwin-amd64-legacy-macos-11.zip parses to os macos and
arch amd64-legacy (legacy marker wins over the trailing OS-version tokens). -/
theorem parseAsset_variant_normalization_witness :
    parseAsset "sing-box-1.12.0-darwin-amd64-legacy-macos-11.zip" =
      some ⟨"macos", "amd64-legacy", "sing-box-1.12.0-darwin-amd64-legacy-macos-11.zip"⟩ := by
  have h := parseAsset_variant_normalization
    "sing-box-1.12.0-darwin-amd64-legacy-macos-11.zip"
    "1.12.0-darwin-amd64-legacy-macos-11".toList
    "darwin".toList "amd64".toList ".zip".toList
    ["1.12.0".toList] ["legacy".toList, "macos".toList, "11".toList]
    (by decide) (Or.inl rfl) (by decide) (by decide) (by decide) (by decide)
    (by decide) (by decide) (by decide) (by decide)
  rw [h]
  decide

/-! ## The release-channel processor and version gate (core-update script) -/

/-- One upstream release asset: a name and a retrieval URL. -/
structure Asset where
  name : String
  browser_download_url : String
deriving DecidableEq, Repr

/-- One upstream release: tag, prerelease flag and asset list. -/
structure Release where
  tag_name : String
  prerelease : Bool
  assets : List Asset
deriving DecidableEq, Repr

/-- Download map: os key to (arch key to URL), as an insertion-ordered
JavaScript object of objects. -/
abbrev DownloadMap := List (Str × List (Str × String))

/-- Record a download URL under downloadMap[os][arch], creating the inner
object when absent; mirrors the two assignment lines of processChannel
(last write wins on a duplicate (os, arch) key). -/
def addDownload (m : DownloadMap) (os arch : Str) (url : String) : DownloadMap :=
  let inner := (getKey m os).getD []
  setKey m os (setKey inner arch url)

/-- A channel manifest section as persisted in core_info.json.  A JavaScript
object may lack any of the fields (the script writes empty objects for
missing channels), hence the Option fields. -/
structure Chan where
  version : Option String
  tag : Option String
  downloads : Option DownloadMap
deriving DecidableEq, Repr

/-- The empty JavaScript object used when a persisted channel is absent. -/
def emptyChan : Chan := ⟨none, none, none⟩

/-- Strip one leading v, as the regex replace of processChannel does. -/
def stripV (s : String) : String :=
  match s.toList with
  | [] => s
  | c :: rest => if c = 'v' then String.mk rest else s

/-- The resource repository name used to build canonical download URLs. -/
def RESOURCE_REPO : String := "Chen-ce/singularity-resources"

/-- The canonical, internally constructed artifact URL
{host}/{repo}/releases/download/{tag}/core-{os}-{arch}.zip. -/
def downloadUrl (repo tag : String) (os arch : Str) : String :=
  "https://github.com/" ++ repo ++ "/releases/download/" ++ tag ++ "/core-" ++
    String.mk os ++ "-" ++ String.mk arch ++ ".zip"

/-- The external per-asset effects of the loop, as oracle functions:
download reports success or failure (the source wraps it in try/catch);
unpack models the bare execSync of the unzip/tar step, whose failure is a
thrown exception; locate models the find-the-binary step, returning the
found path or none (the source maps both a find failure and an empty
result to a skip); rename, chmod and zipPack model the equally un-caught
fs.renameSync, chmod execSync and zip execSync of the staging/repackage
steps, whose failures also propagate out of the loop.  The two
fs.mkdirSync calls are not oracles: their EEXIST failure is determined by
the directory names already created in the shared per-channel temp
directory and is modelled structurally in the loop below. -/
structure Pipeline where
  download : Asset → Bool
  unpack : Asset → Except String Unit
  locate : Asset → Option String
  rename : Asset → Except String Unit
  chmod : Asset → Except String Unit
  zipPack : Asset → Except String Unit

/-- The per-asset key naming the temp-directory entries, os_arch. -/
def dirKey (info : AssetInfo) : String := info.os ++ "_" ++ info.arch

/-- The extraction directory name ext_os_arch created (un-caught
fs.mkdirSync) before unpacking. -/
def extDirName (info : AssetInfo) : String := "ext_" ++ dirKey info

/-- The staging directory name stage_os_arch created (un-caught
fs.mkdirSync) before the move/chmod/zip steps. -/
def stageDirName (info : AssetInfo) : String := "stage_" ++ dirKey info

/-- The per-asset loop of processChannel: classify the name, then run the
pipeline stages, threading the list of directory names already created in
the shared per-channel temp directory.  A classification miss, a download
failure, or a missing binary skips the asset; an unpack exception, a
mkdirSync EEXIST on an already-created directory name (e.g. a duplicate
(os, arch) key), or a rename/chmod/zip failure propagates (Except.error),
aborting the loop, exactly as the un-caught calls do in the source. -/
def processAssets (pl : Pipeline) (tag : String) : List Asset → DownloadMap →
    List String → Except String DownloadMap
  | [], m, _ => Except.ok m
  | a :: rest, m, dirs =>
    match parseAsset a.name with
    | none => processAssets pl tag rest m dirs
    | some info =>
      if pl.download a then
        if extDirName info ∈ dirs then Except.error "EEXIST: mkdirSync"
        else
          match pl.unpack a with
          | Except.error e => Except.error e
          | Except.ok _ =>
            match pl.locate a with
            | none => processAssets pl tag rest m (dirs ++ [extDirName info])
            | some _ =>
              if stageDirName info ∈ dirs ++ [extDirName info] then
                Except.error "EEXIST: mkdirSync"
              else
                match pl.rename a with
                | Except.error e => Except.error e
                | Except.ok _ =>
                  match (if info.os = "windows" then Except.ok () else pl.chmod a) with
                  | Except.error e => Except.error e
                  | Except.ok _ =>
                    match pl.zipPack a with
                    | Except.error e => Except.error e
                    | Except.ok _ =>
                      processAssets pl tag rest
                        (addDownload m info.os.toList info.arch.toList
                          (downloadUrl RESOURCE_REPO tag info.os.toList info.arch.toList))
                        (dirs ++ [extDirName info, stageDirName info])
      else processAssets pl tag rest m dirs

/-- processChannel: run the per-asset loop from a fresh (empty) temp
directory and assemble the channel manifest {version (tag with one
leading v stripped), tag (verbatim), downloads}. -/
def processChannel (pl : Pipeline) (releaseData : Release) (_channelName : String) :
    Except String Chan :=
  (processAssets pl releaseData.tag_name releaseData.assets [] []).map
    (fun m => ⟨some (stripV releaseData.tag_name), some releaseData.tag_name, some m⟩)

/-- The persisted core_info.json state read at the start of a run. -/
structure CoreInfo where
  stable : Option Chan
  alpha : Option Chan
deriving DecidableEq, Repr

/-- Result of one core-update run: both emitted channel sections, the two
publish flags written to the automation output, and the overall
has-update flag that gates rewriting the JSON file. -/
structure GateOutput where
  stable : Chan
  alpha : Chan
  doStable : Bool
  doAlpha : Bool
  hasUpdate : Bool
deriving DecidableEq, Repr

/-- currentInfo.alpha has a structurally empty result: channel absent,
downloads field absent, or downloads object without keys. -/
def alphaEmptyOf (ci : CoreInfo) : Bool :=
  match ci.alpha with
  | none => true
  | some c =>
    match c.downloads with
    | none => true
    | some m => m.isEmpty

/-- The release used as the alpha recomputation source: the first prerelease
of the listing when present, otherwise — when a persisted alpha tag exists
and is non-empty — the result of refetching that tag (an oracle input). -/
def alphaSourceOf (ci : CoreInfo) (rels : List Release) (alphaByTag : Option Release) :
    Option Release :=
  match rels.find? (fun r => r.prerelease) with
  | some r => some r
  | none =>
    match ci.alpha.bind Chan.tag with
    | some v => if v = "" then none else alphaByTag
    | none => none

/-- The stable half of the gate: recompute exactly when a stable release was
fetched and its tag differs from the persisted stable tag; otherwise carry
the persisted section (an empty object when absent). -/
def stablePartOf (ci : CoreInfo) (stableRelease : Option Release)
    (proc : Release → String → Except String Chan) : Except String (Chan × Bool) :=
  match stableRelease with
  | some r =>
    if ci.stable.bind Chan.tag = some r.tag_name then
      Except.ok (ci.stable.getD emptyChan, false)
    else (proc r "stable").map (fun c => (c, true))
  | none => Except.ok (ci.stable.getD emptyChan, false)

/-- alphaNeedsUpdate: empty persisted alpha downloads, or a fetched
prerelease whose tag differs from the persisted alpha tag. -/
def alphaNeedsOf (ci : CoreInfo) (rels : List Release) : Bool :=
  alphaEmptyOf ci ||
    (match rels.find? (fun r => r.prerelease) with
     | some r => decide (ci.alpha.bind Chan.tag ≠ some r.tag_name)
     | none => false)

/-- The alpha half of the gate: recompute from the alpha source when one
exists and an update is needed, otherwise carry the persisted section. -/
def alphaPartOf (ci : CoreInfo) (rels : List Release) (alphaByTag : Option Release)
    (proc : Release → String → Except String Chan) : Except String (Chan × Bool) :=
  match alphaSourceOf ci rels alphaByTag with
  | some src =>
    if alphaNeedsOf ci rels then (proc src "alpha").map (fun c => (c, true))
    else Except.ok (ci.alpha.getD emptyChan, false)
  | none => Except.ok (ci.alpha.getD emptyChan, false)

/-- The version-gated merge of main in the core-update script.  Inputs: the
persisted state, the fetched latest stable release (none models a failed
fetch), the fetched release listing (none models a failed fetch, on which
main crashes dereferencing null), the oracle for refetching the persisted
alpha tag, and the channel processor (processChannel in the source,
abstracted so the gate can be stated for any recomputation function).  A
thrown processChannel exception propagates out of the gate, as in the
source where main's catch block exits the process. -/
def mainGate (ci : CoreInfo) (stableRelease : Option Release)
    (allReleases : Option (List Release)) (alphaByTag : Option Release)
    (proc : Release → String → Except String Chan) : Except String GateOutput :=
  match allReleases with
  | none => Except.error "TypeError: allReleases is null"
  | some rels =>
    match stablePartOf ci stableRelease proc with
    | Except.error e => Except.error e
    | Except.ok (s, ds) =>
      match alphaPartOf ci rels alphaByTag proc with
      | Except.error e => Except.error e
      | Except.ok (a, da) => Except.ok ⟨s, a, ds, da, ds || da⟩

theorem stripV_ne_self_iff (s : String) :
    stripV s ≠ s ↔ ∃ rest, s.toList = 'v' :: rest := by
  obtain ⟨l⟩ := s
  unfold stripV
  cases l with
  | nil => simp
  | cons c rest =>
    by_cases hc : c = 'v'
    · subst hc
      constructor
      · intro _
        exact ⟨rest, rfl⟩
      · intro _ heq
        have heq2 : ({ data := rest } : String) = { data := 'v' :: rest } := by
          simpa using heq
        injection heq2 with h2
        simpa using congrArg List.length h2
    · simp [String.toList, hc]

/-- C10: for every successfully recomputed channel, the manifest's version
field is the upstream release tag with a single leading v stripped when
present, the tag field keeps the upstream tag verbatim, and the two fields
differ exactly when the tag starts with v. -/
theorem processChannel_version_tag (pl : Pipeline) (r : Release) (cn : String) (ch : Chan)
    (h : processChannel pl r cn = Except.ok ch) :
    ch.version = some (stripV r.tag_name) ∧ ch.tag = some r.tag_name ∧
    (ch.version ≠ ch.tag ↔ ∃ rest, r.tag_name.toList = 'v' :: rest) := by
  unfold processChannel at h
  cases hp : processAssets pl r.tag_name r.assets [] [] with
  | error e =>
    rw [hp] at h
    exact absurd h (by simp [Except.map])
  | ok m =>
    rw [hp] at h
    simp only [Except.map, Except.ok.injEq] at h
    subst h
    refine ⟨rfl, rfl, ?_⟩
    rw [ne_eq, Option.some.injEq]
    exact stripV_ne_self_iff r.tag_name

def relC10 : Release := ⟨"v1.2.3", false, []⟩

def plAllOk : Pipeline := ⟨fun _ => true, fun _ => Except.ok (), fun _ => some "bin",
  fun _ => Except.ok (), fun _ => Except.ok (), fun _ => Except.ok ()⟩

def chC10 : Chan := ⟨some "1.2.3", some "v1.2.3", some []⟩

/-- Witness for C10: a recomputation for tag v1.2.3 emits version 1.2.3 and
keeps the tag, and the two fields differ since the tag starts with v. -/
theorem processChannel_version_tag_witness :
    chC10.version = some (stripV "v1.2.3") ∧ chC10.tag = some "v1.2.3" ∧
    (chC10.version ≠ chC10.tag ↔ ∃ rest, "v1.2.3".toList = 'v' :: rest) :=
  processChannel_version_tag plAllOk relC10 "stable" chC10 rfl

theorem alphaNeedsOf_true_iff (ci : CoreInfo) (rels : List Release) :
    alphaNeedsOf ci rels = true ↔
      alphaEmptyOf ci = true ∨
        ∃ r, rels.find? (fun x => x.prerelease) = some r ∧
          ci.alpha.bind Chan.tag ≠ some r.tag_name := by
  unfold alphaNeedsOf
  cases hf : rels.find? (fun x => x.prerelease) with
  | none => simp
  | some r => simp

theorem stablePartOf_ok (ci : CoreInfo) (sr : Option Release)
    (proc : Release → String → Except String Chan) (s : Chan) (ds : Bool)
    (h : stablePartOf ci sr proc = Except.ok (s, ds)) :
    (ds = true ↔ ∃ r, sr = some r ∧ ci.stable.bind Chan.tag ≠ some r.tag_name) ∧
    (ds = false → s = ci.stable.getD emptyChan) := by
  cases sr with
  | none =>
    simp only [stablePartOf, Except.ok.injEq, Prod.mk.injEq] at h
    obtain ⟨h1, h2⟩ := h
    subst h1
    subst h2
    refine ⟨?_, fun _ => rfl⟩
    constructor
    · intro hf
      cases hf
    · rintro ⟨r, hr, _⟩
      cases hr
  | some r =>
    by_cases ht : ci.stable.bind Chan.tag = some r.tag_name
    · simp only [stablePartOf, if_pos ht, Except.ok.injEq, Prod.mk.injEq] at h
      obtain ⟨h1, h2⟩ := h
      subst h1
      subst h2
      refine ⟨?_, fun _ => rfl⟩
      constructor
      · intro hf
        cases hf
      · rintro ⟨r', hr', hne⟩
        injection hr' with h3
        subst h3
        exact absurd ht hne
    · simp only [stablePartOf, if_neg ht] at h
      cases hpr : proc r "stable" with
      | error e =>
        rw [hpr] at h
        simp [Except.map] at h
      | ok ch =>
        rw [hpr] at h
        simp only [Except.map, Except.ok.injEq, Prod.mk.injEq] at h
        obtain ⟨h1, h2⟩ := h
        subst h1
        subst h2
        refine ⟨⟨fun _ => ⟨r, rfl, ht⟩, fun _ => rfl⟩, ?_⟩
        intro hf
        cases hf

theorem alphaPartOf_ok (ci : CoreInfo) (rels : List Release) (abt : Option Release)
    (proc : Release → String → Except String Chan) (a : Chan) (da : Bool)
    (h : alphaPartOf ci rels abt proc = Except.ok (a, da)) :
    (da = true ↔ (alphaSourceOf ci rels abt).isSome = true ∧ alphaNeedsOf ci rels = true) ∧
    (da = false → a = ci.alpha.getD emptyChan) := by
  cases hsrc : alphaSourceOf ci rels abt with
  | none =>
    simp only [alphaPartOf, hsrc, Except.ok.injEq, Prod.mk.injEq] at h
    obtain ⟨h1, h2⟩ := h
    subst h1
    subst h2
    refine ⟨?_, fun _ => rfl⟩
    constructor
    · intro hf
      cases hf
    · rintro ⟨hi, _⟩
      simp at hi
  | some src =>
    simp only [alphaPartOf, hsrc] at h
    by_cases hn : alphaNeedsOf ci rels = true
    · rw [if_pos hn] at h
      cases hpr : proc src "alpha" with
      | error e =>
        rw [hpr] at h
        simp [Except.map] at h
      | ok ch =>
        rw [hpr] at h
        simp only [Except.map, Except.ok.injEq, Prod.mk.injEq] at h
        obtain ⟨h1, h2⟩ := h
        subst h1
        subst h2
        refine ⟨⟨fun _ => ⟨rfl, hn⟩, fun _ => rfl⟩, ?_⟩
        intro hf
        cases hf
    · rw [if_neg hn] at h
      simp only [Except.ok.injEq, Prod.mk.injEq] at h
      obtain ⟨h1, h2⟩ := h
      subst h1
      subst h2
      refine ⟨?_, fun _ => rfl⟩
      constructor
      · intro hf
        cases hf
      · rintro ⟨_, hn2⟩
        exact absurd hn2 hn

/-- Decompose a successful gate run into its stable and alpha halves. -/
theorem mainGate_ok_parts (ci : CoreInfo) (sr : Option Release) (rels : List Release)
    (abt : Option Release) (proc : Release → String → Except String Chan)
    (out : GateOutput) (h : mainGate ci sr (some rels) abt proc = Except.ok out) :
    stablePartOf ci sr proc = Except.ok (out.stable, out.doStable) ∧
    alphaPartOf ci rels abt proc = Except.ok (out.alpha, out.doAlpha) := by
  cases hsp : stablePartOf ci sr proc with
  | error e =>
    simp only [mainGate, hsp] at h
    simp at h
  | ok p =>
    obtain ⟨s, ds⟩ := p
    cases hap : alphaPartOf ci rels abt proc with
    | error e =>
      simp only [mainGate, hsp, hap] at h
      simp at h
    | ok q =>
      obtain ⟨a, da⟩ := q
      simp only [mainGate, hsp, hap, Except.ok.injEq] at h
      subst h
      exact ⟨rfl, rfl⟩

/-- C3 (amended): a channel section is carried over byte-identical
(structurally equal, hence serialized identically) when its freshly
retrieved tag equals the persisted one — unconditionally for stable, and
for alpha additionally requiring the persisted downloads map to be present
and non-empty (the source recomputes alpha when it is empty, even on an
unchanged tag).  Both carry-overs hold independent of what the other
channel does, so when one channel changes only its section is replaced. -/
theorem versionGate_carryover (ci : CoreInfo) (sr : Option Release)
    (rels : List Release) (abt : Option Release)
    (proc : Release → String → Except String Chan) (out : GateOutput)
    (h : mainGate ci sr (some rels) abt proc = Except.ok out) :
    (∀ c r, ci.stable = some c → sr = some r → c.tag = some r.tag_name →
      out.stable = c) ∧
    (∀ c r, ci.alpha = some c → rels.find? (fun x => x.prerelease) = some r →
      c.tag = some r.tag_name → (∃ dm, c.downloads = some dm ∧ dm ≠ []) →
      out.alpha = c) := by
  obtain ⟨hsp, hap⟩ := mainGate_ok_parts ci sr rels abt proc out h
  constructor
  · intro c r hcs hsr htag
    subst hsr
    have hx : stablePartOf ci (some r) proc = Except.ok (c, false) := by
      simp [stablePartOf, hcs, htag]
    rw [hx] at hsp
    simp only [Except.ok.injEq, Prod.mk.injEq] at hsp
    exact hsp.1.symm
  · intro c r hca hfind htag hdm
    obtain ⟨dm, hdm1, hdm2⟩ := hdm
    have hempty : alphaEmptyOf ci = false := by
      simp only [alphaEmptyOf, hca, hdm1]
      cases dm with
      | nil => exact absurd rfl hdm2
      | cons x xs => rfl
    have hneeds : alphaNeedsOf ci rels = false := by
      simp [alphaNeedsOf, hempty, hfind, hca, htag]
    have hsrc : alphaSourceOf ci rels abt = some r := by
      simp [alphaSourceOf, hfind]
    have hx : alphaPartOf ci rels abt proc = Except.ok (c, false) := by
      simp [alphaPartOf, hsrc, hneeds, hca]
    rw [hx] at hap
    simp only [Except.ok.injEq, Prod.mk.injEq] at hap
    exact hap.1.symm

def chanC3old : Chan := ⟨some "1.1.0-alpha.1", some "v1.1.0-alpha.1", some []⟩

def ciC3 : CoreInfo := ⟨none, some chanC3old⟩

def relC3 : Release := ⟨"v1.1.0-alpha.1", true, [⟨"sing-box-1.1.0-linux-amd64.tar.gz", "u"⟩]⟩

def outC3 : GateOutput := ⟨emptyChan,
  ⟨some "1.1.0-alpha.1", some "v1.1.0-alpha.1",
   some [("linux".toList, [("amd64".toList,
     "https://github.com/Chen-ce/singularity-resources/releases/download/v1.1.0-alpha.1/core-linux-amd64.zip")])]⟩,
  false, true, true⟩

/-- Counterexample for C3 as stated: the persisted alpha section has the
same tag as the freshly retrieved prerelease, yet because its downloads
map is empty the gate recomputes alpha, and the emitted section is not
byte-identical to the persisted one. -/
theorem versionGate_same_tag_recompute :
    chanC3old.tag = some relC3.tag_name ∧
    mainGate ciC3 none (some [relC3]) none (processChannel plAllOk) = Except.ok outC3 ∧
    outC3.alpha ≠ chanC3old :=
  ⟨rfl, rfl, by decide⟩

def chanW3alpha : Chan := ⟨some "1.1.0-a", some "v1.1.0-a",
  some [("linux".toList, [("amd64".toList, "u")])]⟩

def ciW3 : CoreInfo := ⟨some ⟨some "0.9.0", some "v0.9.0", some []⟩, some chanW3alpha⟩

def srW3 : Release := ⟨"v1.0.0", false, []⟩

def relW3 : Release := ⟨"v1.1.0-a", true, []⟩

def outW3 : GateOutput := ⟨⟨some "1.0.0", some "v1.0.0", some []⟩, chanW3alpha, true, false, true⟩

/-- Witness for the amended C3: in a run where the stable tag changed and is
recomputed, the unchanged alpha section (same tag, non-empty downloads) is
carried over intact. -/
theorem versionGate_carryover_witness :
    outW3.alpha = chanW3alpha :=
  (versionGate_carryover ciW3 (some srW3) [relW3] none (processChannel plAllOk) outW3 rfl).2
    chanW3alpha relW3 rfl rfl rfl
    ⟨[("linux".toList, [("amd64".toList, "u")])], rfl, by decide⟩

/-- C4 (amended): on a successful run, the stable channel is recomputed
exactly when a stable release was retrieved and its tag differs from the
persisted stable tag — a structurally empty persisted stable result does
not trigger recomputation; the alpha channel is recomputed exactly when an
alpha source release is available and (the persisted alpha result is
structurally empty, or a retrieved prerelease's tag differs from the
persisted alpha tag).  A channel that is not recomputed keeps its
persisted section, so each trigger affects only its own channel. -/
theorem versionGate_triggers (ci : CoreInfo) (sr : Option Release)
    (rels : List Release) (abt : Option Release)
    (proc : Release → String → Except String Chan) (out : GateOutput)
    (h : mainGate ci sr (some rels) abt proc = Except.ok out) :
    (out.doStable = true ↔ ∃ r, sr = some r ∧ ci.stable.bind Chan.tag ≠ some r.tag_name) ∧
    (out.doAlpha = true ↔ (alphaSourceOf ci rels abt).isSome = true ∧
      (alphaEmptyOf ci = true ∨ ∃ r, rels.find? (fun x => x.prerelease) = some r ∧
        ci.alpha.bind Chan.tag ≠ some r.tag_name)) ∧
    (out.doStable = false → out.stable = ci.stable.getD emptyChan) ∧
    (out.doAlpha = false → out.alpha = ci.alpha.getD emptyChan) := by
  obtain ⟨hsp, hap⟩ := mainGate_ok_parts ci sr rels abt proc out h
  obtain ⟨hs1, hs2⟩ := stablePartOf_ok ci sr proc out.stable out.doStable hsp
  obtain ⟨ha1, ha2⟩ := alphaPartOf_ok ci rels abt proc out.alpha out.doAlpha hap
  refine ⟨hs1, ?_, hs2, ha2⟩
  rw [ha1, alphaNeedsOf_true_iff]

def chanC4old : Chan := ⟨some "1.0.0", some "v1.0.0", some []⟩

def ciC4 : CoreInfo := ⟨some chanC4old, none⟩

def srC4 : Release := ⟨"v1.0.0", false, [⟨"sing-box-1.0.0-linux-amd64.tar.gz", "u"⟩]⟩

/-- Counterexample for C4 as stated: the persisted stable section has a
structurally empty downloads map, yet with an unchanged tag the gate does
not recompute stable (no publish flag, section kept) — the stable branch
has no emptiness trigger. -/
theorem versionGate_empty_stable_no_recompute :
    chanC4old.downloads = some [] ∧
    mainGate ciC4 (some srC4) (some []) none (processChannel plAllOk) =
      Except.ok ⟨chanC4old, emptyChan, false, false, false⟩ :=
  ⟨rfl, rfl⟩

def srW4 : Release := ⟨"v2.0.0", false, []⟩

def outW4 : GateOutput := ⟨⟨some "2.0.0", some "v2.0.0", some []⟩, emptyChan, true, false, true⟩

/-- Witness for the amended C4: with no persisted state, a retrieved stable
release triggers stable recomputation, while the alpha channel (no source
available) keeps its persisted (empty) section. -/
theorem versionGate_triggers_witness :
    outW4.doStable = true ∧ outW4.alpha = emptyChan :=
  have ht := versionGate_triggers ⟨none, none⟩ (some srW4) [] none
    (processChannel plAllOk) outW4 rfl
  ⟨ht.1.2 ⟨srW4, rfl, by simp⟩, ht.2.2.2 rfl⟩

/-! ## The rule indexer (scripts/update_rules.js) -/

/-- One entry of the flat tree listing handed to buildRulesIndex. -/
structure TreeItem where
  type : Str
  path : Str
deriving DecidableEq, Repr

/-- One file retained for a rule record. -/
structure RuleFile where
  path : Str
  fileType : Str
  geoType : Str
deriving DecidableEq, Repr

/-- What the loop body of buildRulesIndex extracts from one retained item
before merging it into the accumulator map. -/
structure Entry where
  name : Str
  fileType : Str
  geo : Option Str
  path : Str
deriving DecidableEq, Repr

/-- The per-name accumulator record of buildRulesIndex.  The two JavaScript
Sets are modelled by membership flags, which is all the resolve helpers
query. -/
structure RuleAcc where
  name : Str
  hasBinary : Bool
  hasSource : Bool
  hasGeoip : Bool
  hasGeosite : Bool
  files : List RuleFile
deriving DecidableEq, Repr

/-- A resolved rule record of the index. -/
structure RuleRecord where
  name : Str
  fileType : Str
  geoType : Str
  files : List RuleFile
deriving DecidableEq, Repr

/-- Strip one trailing .srs or .json, as the regex replace on the filename
segment does. -/
def stripRuleExt (filename : Str) : Str :=
  if endsW ".srs".toList filename then filename.take (filename.length - 4)
  else if endsW ".json".toList filename then filename.take (filename.length - 5)
  else filename

/-- The guard-and-extract part of the loop body of buildRulesIndex: require
a blob, the scope path stem, a recognized extension, and at least two
path segments after stripping the stem; classify the category by substring
match and the file type by extension; take the second segment minus its
extension as the name. -/
def classifyItem (pfx : Str) (it : TreeItem) : Option Entry :=
  if it.type ≠ "blob".toList then none
  else if ¬ startsW pfx it.path then none
  else
    let rel := it.path.drop pfx.length
    let ftOpt : Option Str :=
      if endsW ".srs".toList rel then some ("binary".toList)
      else if endsW ".json".toList rel then some ("source".toList)
      else none
    match ftOpt with
    | none => none
    | some ft =>
      let parts := splitOnChar '/' rel
      if parts.length < 2 then none
      else
        let category := (parts[0]?).getD []
        let filename := (parts[1]?).getD []
        let nm := stripRuleExt filename
        let geo : Option Str :=
          if containsSeq "geoip".toList category then some ("geoip".toList)
          else if containsSeq "geosite".toList category then some ("geosite".toList)
          else none
        some ⟨nm, ft, geo, it.path⟩

/-- The fresh accumulator created on the first occurrence of a name. -/
def newAcc (nm : Str) : RuleAcc := ⟨nm, false, false, false, false, []⟩

/-- Merge one extracted entry into a name's accumulator: add the observed
file type and category to the sets, and append the RuleFile (only when a
category marker matched). -/
def updAcc (acc : RuleAcc) (e : Entry) : RuleAcc :=
  ⟨acc.name,
   acc.hasBinary || (e.fileType == "binary".toList),
   acc.hasSource || (e.fileType == "source".toList),
   acc.hasGeoip || (e.geo == some ("geoip".toList)),
   acc.hasGeosite || (e.geo == some ("geosite".toList)),
   acc.files ++ (match e.geo with
     | some g => [⟨e.path, e.fileType, g⟩]
     | none => [])⟩

/-- One iteration of the loop of buildRulesIndex over the Map. -/
def stepRule (pfx : Str) (m : List (Str × RuleAcc)) (it : TreeItem) : List (Str × RuleAcc) :=
  match classifyItem pfx it with
  | none => m
  | some e => setKey m e.name (updAcc ((getKey m e.name).getD (newAcc e.name)) e)

/-- The accumulator Map after the whole loop. -/
def buildAccs (treeItems : List TreeItem) (pfx : Str) : List (Str × RuleAcc) :=
  treeItems.foldl (stepRule pfx) []

/-- resolveFileType of the source, over the membership flags. -/
def resolveFileType (acc : RuleAcc) : Str :=
  if acc.hasBinary && acc.hasSource then "all".toList
  else if acc.hasSource then "source".toList
  else "binary".toList

/-- resolveGeoType of the source, over the membership flags. -/
def resolveGeoType (acc : RuleAcc) : Str :=
  if acc.hasGeoip && acc.hasGeosite then "all".toList
  else if acc.hasGeoip then "geoip".toList
  else if acc.hasGeosite then "geosite".toList
  else "all".toList

/-- Comparator of the per-record file sort (paths, lexicographic). -/
def fileLe (a b : RuleFile) : Bool := lexLe a.path b.path

/-- Comparator of the record sort (names, lexicographic). -/
def recLe (a b : RuleRecord) : Bool := lexLe a.name b.name

/-- Resolve one accumulator into an output record, sorting its file list. -/
def resolveAcc (acc : RuleAcc) : RuleRecord :=
  ⟨acc.name, resolveFileType acc, resolveGeoType acc, sortLe fileLe acc.files⟩

/-- buildRulesIndex: fold the items into the per-name map, resolve each
accumulated record, and sort the records by name. -/
def buildRulesIndex (treeItems : List TreeItem) (pfx : Str) : List RuleRecord :=
  sortLe recLe ((buildAccs treeItems pfx).map (fun p => resolveAcc p.2))

/-- A persisted rules entry (the per-record file list is dropped on
output). -/
structure RuleOut where
  name : Str
  fileType : Str
  geoType : Str
deriving DecidableEq, Repr

/-- The homogeneity flag written to the index: non-empty rule list and every
record's fileType resolved to all. -/
def fileOnlyAll (rules : List RuleRecord) : Bool :=
  decide (rules.length > 0) && rules.all (fun r => r.fileType == "all".toList)

def BASE_URL : String := "https://cdn.jsdelivr.net/gh/MetaCubeX/meta-rules-dat@sing"

def RAW_BASE_URL : String := "https://raw.githubusercontent.com/MetaCubeX/meta-rules-dat/sing"

/-- One persisted rule index document. -/
structure RuleIndexOut where
  version : String
  baseUrl : String
  rawBaseUrl : String
  fileOnlyAll : Bool
  rules : List RuleOut
deriving DecidableEq, Repr

/-- Assemble the output document for one scope, as main does. -/
def mkIndexOut (version : String) (rules : List RuleRecord) : RuleIndexOut :=
  ⟨version, BASE_URL, RAW_BASE_URL, fileOnlyAll rules,
   rules.map (fun r => ⟨r.name, r.fileType, r.geoType⟩)⟩

/-! ## The retrying metadata fetch and its caller (scripts/update_rules.js) -/

/-- Response classes an attempt of the retrying fetch can observe: a usable
JSON payload, a resource-not-found response, or any other failure (a
non-success status or a thrown network/parse error). -/
inductive FetchResp (α : Type) where
  | ok (v : α)
  | notFound
  | fail
deriving DecidableEq, Repr

/-- The retry loop of fetchJson: attempt index i against a response
schedule, with remaining fuel; returns the result together with the list
of inter-attempt delays slept, in order. -/
def fetchLoop {α : Type} (resp : Nat → FetchResp α) (retries : Nat) :
    Nat → Nat → Option α × List Nat
  | _, 0 => (none, [])
  | i, fuel+1 =>
    match resp i with
    | FetchResp.ok v => (some v, [])
    | FetchResp.notFound => (none, [])
    | FetchResp.fail =>
      if i = retries - 1 then (none, [])
      else
        let r := fetchLoop resp retries (i+1) fuel
        (r.1, 1000 * (i + 1) :: r.2)

/-- fetchJson with its default of three attempts. -/
def fetchJsonRetry {α : Type} (resp : Nat → FetchResp α) : Option α × List Nat :=
  fetchLoop resp 3 0 3

/-- Remove every dash, colon, T and Z from the ISO timestamp, as
formatCommitTime does. -/
def formatCommitTime (s : String) : String :=
  ⟨s.toList.filter (fun c => !(c == '-' || c == ':' || c == 'T' || c == 'Z'))⟩

/-- Outcome of the version check of the rules script's main. -/
inductive RulesOutcome where
  | skip (version : String)
  | updated (version : String)
deriving DecidableEq, Repr

/-- The caller side of the commit-metadata fetch in main: a null result
makes main throw (and the process exits non-zero); otherwise the commit
date is normalized and compared against the persisted version marker. -/
def rulesGate (commitDate : Option String) (currentVersion : String) :
    Except String RulesOutcome :=
  match commitDate with
  | none => Except.error "Commit fetch failed after retries"
  | some d =>
    let newVersion := formatCommitTime d
    if currentVersion = newVersion then Except.ok (RulesOutcome.skip newVersion)
    else Except.ok (RulesOutcome.updated newVersion)

example : buildRulesIndex
    [⟨"blob".toList, "geo/geoip/cn.srs".toList⟩,
     ⟨"blob".toList, "geo/geoip/cn.json".toList⟩,
     ⟨"blob".toList, "geo/geosite/example.srs".toList⟩] "geo/".toList =
    [⟨"cn".toList, "all".toList, "geoip".toList,
      [⟨"geo/geoip/cn.json".toList, "source".toList, "geoip".toList⟩,
       ⟨"geo/geoip/cn.srs".toList, "binary".toList, "geoip".toList⟩]⟩,
     ⟨"example".toList, "binary".toList, "geosite".toList,
      [⟨"geo/geosite/example.srs".toList, "binary".toList, "geosite".toList⟩]⟩] := by decide

/-- C7 (amended): the homogeneity flag of a produced index is true exactly
when the rules sequence is non-empty and every record's form resolved to
all — for an empty rules sequence the flag is false, not vacuously true. -/
theorem fileOnlyAll_iff (version : String) (rules : List RuleRecord) :
    (mkIndexOut version rules).fileOnlyAll = true ↔
      rules ≠ [] ∧ ∀ r ∈ rules, r.fileType = "all".toList := by
  show fileOnlyAll rules = true ↔ _
  simp only [fileOnlyAll, Bool.and_eq_true, decide_eq_true_eq, List.all_eq_true, beq_iff_eq]
  constructor
  · rintro ⟨h1, h2⟩
    exact ⟨List.ne_nil_of_length_pos h1, h2⟩
  · rintro ⟨h1, h2⟩
    exact ⟨List.length_pos_of_ne_nil h1, h2⟩

/-- Counterexample for C7 as stated: for the (reachable) empty rules
sequence every record vacuously resolved to all, yet the emitted flag is
false. -/
theorem fileOnlyAll_empty_false :
    (mkIndexOut "20240101000000" []).fileOnlyAll = false ∧
    (([] : List RuleRecord).all (fun r => r.fileType == "all".toList)) = true :=
  ⟨rfl, rfl⟩

/-- C8 (amended): the metadata fetch retries up to the fixed three attempts
with linearly increasing delays (1000ms then 2000ms), stops immediately
without retrying on a resource-not-found response, retries on any other
failure, and yields no data on exhaustion; but the caller of the commit
fetch treats that absence by throwing, so the run aborts with a non-zero
exit (leaving the previously persisted files untouched) instead of falling
back and continuing. -/
theorem fetchRetry_policy :
    (∀ (α : Type) (resp : Nat → FetchResp α), resp 0 = FetchResp.notFound →
      fetchJsonRetry resp = (none, [])) ∧
    (∀ (α : Type) (resp : Nat → FetchResp α), resp 0 = FetchResp.fail →
      resp 1 = FetchResp.fail → resp 2 = FetchResp.fail →
      fetchJsonRetry resp = (none, [1000, 2000])) ∧
    (∀ (α : Type) (resp : Nat → FetchResp α) (v : α), resp 0 = FetchResp.fail →
      resp 1 = FetchResp.ok v → fetchJsonRetry resp = (some v, [1000])) ∧
    (∀ currentVersion : String, rulesGate none currentVersion =
      Except.error "Commit fetch failed after retries") := by
  refine ⟨?_, ?_, ?_, fun _ => rfl⟩
  · intro α resp h0
    simp [fetchJsonRetry, fetchLoop, h0]
  · intro α resp h0 h1 h2
    simp [fetchJsonRetry, fetchLoop, h0, h1, h2]
  · intro α resp v h0 h1
    simp [fetchJsonRetry, fetchLoop, h0, h1]

/-- Counterexample for C8 as stated: when every attempt fails, the fetch
yields no data after the two backoff sleeps, and the caller of the commit
fetch then throws — the run aborts instead of falling back for the scope. -/
theorem fetch_exhaustion_aborts :
    fetchJsonRetry (fun _ => (FetchResp.fail : FetchResp String)) = (none, [1000, 2000]) ∧
    rulesGate none "20240101000000" = Except.error "Commit fetch failed after retries" :=
  ⟨rfl, rfl⟩

/-- Witness for the amended C8: immediate stop on not-found, retry then
success with one 1000ms delay, and the caller's throw on absent data. -/
theorem fetchRetry_policy_witness :
    fetchJsonRetry (fun _ => (FetchResp.notFound : FetchResp String)) = (none, []) ∧
    fetchJsonRetry (fun i => if i = 0 then (FetchResp.fail : FetchResp String)
      else FetchResp.ok "data") = (some "data", [1000]) ∧
    rulesGate none "x" = Except.error "Commit fetch failed after retries" :=
  ⟨fetchRetry_policy.1 String _ rfl,
   fetchRetry_policy.2.2.1 String _ "data" rfl rfl,
   fetchRetry_policy.2.2.2 "x"⟩

/-! ## Sorting lemmas for the determinism proof -/

theorem lexLe_total (a b : Str) : lexLe a b = true ∨ lexLe b a = true := by
  induction a generalizing b with
  | nil => left; rfl
  | cons x xs ih =>
    cases b with
    | nil => right; rfl
    | cons y ys =>
      by_cases hxy : x < y
      · left
        simp [lexLe, hxy]
      · by_cases hyx : y < x
        · right
          simp [lexLe, hyx]
        · rcases ih ys with h | h
          · left
            simp [lexLe, hxy, hyx, h]
          · right
            simp [lexLe, hxy, hyx, h]

theorem lexLe_trans {a b c : Str} (h1 : lexLe a b = true) (h2 : lexLe b c = true) :
    lexLe a c = true := by
  induction a generalizing b c with
  | nil => rfl
  | cons x xs ih =>
    cases b with
    | nil => cases h1
    | cons y ys =>
      cases c with
      | nil => cases h2
      | cons z zs =>
        simp only [lexLe] at h1 h2 ⊢
        by_cases hxy : x < y
        · have hyz : y < z ∨ (¬ y < z ∧ ¬ z < y) := by
            by_cases h : y < z
            · exact Or.inl h
            · refine Or.inr ⟨h, ?_⟩
              intro hzy
              rw [if_neg h, if_pos hzy] at h2
              cases h2
          have hxz : x < z := by
            rcases hyz with h | ⟨h3, h4⟩
            · exact lt_trans hxy h
            · have : y = z := le_antisymm (not_lt.1 h4) (not_lt.1 h3)
              exact this ▸ hxy
          rw [if_pos hxz]
        · by_cases hyx : y < x
          · rw [if_neg hxy, if_pos hyx] at h1
            cases h1
          · have hxey : x = y := le_antisymm (not_lt.1 hyx) (not_lt.1 hxy)
            subst hxey
            rw [if_neg hxy, if_neg hxy] at h1
            by_cases hxz : x < z
            · rw [if_pos hxz]
            · by_cases hzx : z < x
              · rw [if_neg hxz, if_pos hzx] at h2
                cases h2
              · rw [if_neg hxz, if_neg hzx] at h2
                rw [if_neg hxz, if_neg hzx]
                exact ih h1 h2

theorem lexLe_antisymm {a b : Str} (h1 : lexLe a b = true) (h2 : lexLe b a = true) :
    a = b := by
  induction a generalizing b with
  | nil =>
    cases b with
    | nil => rfl
    | cons y ys => cases h2
  | cons x xs ih =>
    cases b with
    | nil => cases h1
    | cons y ys =>
      simp only [lexLe] at h1 h2
      by_cases hxy : x < y
      · rw [if_neg (lt_asymm hxy), if_pos hxy] at h2
        cases h2
      · by_cases hyx : y < x
        · rw [if_pos hyx] at h1
          rw [if_neg hxy] at h1
          cases h1
        · have hxey : x = y := le_antisymm (not_lt.1 hyx) (not_lt.1 hxy)
          subst hxey
          rw [if_neg hxy, if_neg hxy] at h1 h2
          rw [ih h1 h2]

theorem perm_insertLe {α : Type} (le : α → α → Bool) (a : α) (l : List α) :
    (insertLe le a l).Perm (a :: l) := by
  induction l with
  | nil => exact List.Perm.refl _
  | cons b bs ih =>
    simp only [insertLe]
    by_cases h : le a b = true
    · rw [if_pos h]
    · rw [if_neg h]
      exact (ih.cons b).trans (List.Perm.swap a b bs)

theorem perm_sortLe {α : Type} (le : α → α → Bool) (l : List α) :
    (sortLe le l).Perm l := by
  induction l with
  | nil => exact List.Perm.refl _
  | cons a as_ ih =>
    exact (perm_insertLe le a (sortLe le as_)).trans (ih.cons a)

theorem mem_insertLe {α : Type} {le : α → α → Bool} {a x : α} {l : List α}
    (h : x ∈ insertLe le a l) : x = a ∨ x ∈ l := by
  have := (perm_insertLe le a l).mem_iff.1 h
  simpa using this

theorem pairwise_insertLe {α : Type} (le : α → α → Bool)
    (htrans : ∀ a b c, le a b = true → le b c = true → le a c = true)
    (htot : ∀ a b, le a b = true ∨ le b a = true)
    {a : α} {l : List α} (h : l.Pairwise (fun x y => le x y = true)) :
    (insertLe le a l).Pairwise (fun x y => le x y = true) := by
  induction l with
  | nil => simp [insertLe]
  | cons b bs ih =>
    simp only [insertLe]
    by_cases hab : le a b = true
    · rw [if_pos hab]
      refine List.Pairwise.cons ?_ h
      intro x hx
      rcases List.mem_cons.1 hx with rfl | hx2
      · exact hab
      · exact htrans a b x hab ((List.pairwise_cons.1 h).1 x hx2)
    · rw [if_neg hab]
      have hba : le b a = true := (htot a b).resolve_left hab
      obtain ⟨hb, hbs⟩ := List.pairwise_cons.1 h
      refine List.Pairwise.cons ?_ (ih hbs)
      intro x hx
      rcases mem_insertLe hx with rfl | hx
      · exact hba
      · exact hb x hx

theorem pairwise_sortLe {α : Type} (le : α → α → Bool)
    (htrans : ∀ a b c, le a b = true → le b c = true → le a c = true)
    (htot : ∀ a b, le a b = true ∨ le b a = true) (l : List α) :
    (sortLe le l).Pairwise (fun x y => le x y = true) := by
  induction l with
  | nil => simp [sortLe]
  | cons a as_ ih => exact pairwise_insertLe le htrans htot ih

/-- Two sorted lists that are permutations of each other and whose elements
are determined by their sort key (ties are identical) are equal. -/
theorem sorted_perm_eq {α : Type} {le : α → α → Bool} :
    ∀ {l1 l2 : List α}, l1.Perm l2 →
    l1.Pairwise (fun x y => le x y = true) →
    l2.Pairwise (fun x y => le x y = true) →
    (∀ a ∈ l1, ∀ b ∈ l1, le a b = true → le b a = true → a = b) →
    l1 = l2
  | [], l2, hp, _, _, _ => by simpa using hp.nil_eq
  | a :: t, [], hp, _, _, _ => by
    have := hp.length_eq
    simp at this
  | a :: t, b :: t2, hp, h1, h2, hties => by
    have hab : a = b := by
      by_cases hq : a = b
      · exact hq
      · have hainb : a ∈ b :: t2 := hp.mem_iff.1 (by simp)
        have hbina : b ∈ a :: t := hp.mem_iff.2 (by simp)
        have hat2 : a ∈ t2 := by
          rcases hainb with _ | h
          · exact absurd rfl hq
          · assumption
        have hbt : b ∈ t := by
          rcases hbina with _ | h
          · exact absurd rfl (fun he => hq he.symm)
          · assumption
        have hle1 : le a b = true := (List.pairwise_cons.1 h1).1 b hbt
        have hle2 : le b a = true := (List.pairwise_cons.1 h2).1 a hat2
        exact hties a (by simp) b (by simp [hbt]) hle1 hle2
    subst hab
    have hpt : t.Perm t2 := hp.cons_inv
    have := sorted_perm_eq hpt (List.pairwise_cons.1 h1).2 (List.pairwise_cons.1 h2).2
      (fun x hx y hy => hties x (by simp [hx]) y (by simp [hy]))
    rw [this]

/-! ## Association-map lemmas -/

theorem getKey_setKey {β : Type} (m : List (Str × β)) (k : Str) (v : β) (k' : Str) :
    getKey (setKey m k v) k' = if k = k' then some v else getKey m k' := by
  induction m with
  | nil =>
    by_cases h : k = k' <;> simp [setKey, getKey, h]
  | cons p r ih =>
    obtain ⟨k0, v0⟩ := p
    by_cases h0 : k0 = k
    · subst h0
      by_cases h1 : k0 = k' <;> simp [setKey, getKey, h1]
    · by_cases h1 : k0 = k'
      · subst h1
        have h0' : ¬ k = k0 := fun he => h0 he.symm
        simp [setKey, getKey, h0, h0']
      · simp [setKey, getKey, h0, h1, ih]

theorem getKey_mem {β : Type} {m : List (Str × β)} {k : Str} {v : β}
    (h : getKey m k = some v) : (k, v) ∈ m := by
  induction m with
  | nil => cases h
  | cons p r ih =>
    obtain ⟨k0, v0⟩ := p
    simp only [getKey] at h
    by_cases h0 : k0 = k
    · subst h0
      rw [if_pos rfl] at h
      injection h with h2
      subst h2
      exact List.mem_cons_self _ _
    · rw [if_neg h0] at h
      exact List.mem_cons_of_mem _ (ih h)

theorem getKey_eq_none_iff {β : Type} {m : List (Str × β)} {k : Str} :
    getKey m k = none ↔ k ∉ m.map Prod.fst := by
  induction m with
  | nil => simp [getKey]
  | cons p r ih =>
    obtain ⟨k0, v0⟩ := p
    simp only [getKey, List.map_cons, List.mem_cons]
    by_cases h0 : k0 = k
    · subst h0
      rw [if_pos rfl]
      constructor
      · intro h
        cases h
      · intro h
        exact absurd (Or.inl rfl) h
    · rw [if_neg h0, ih]
      constructor
      · intro h he
        rcases he with he | he
        · exact h0 he.symm
        · exact h he
      · intro h
        intro hm
        exact h (Or.inr hm)

theorem setKey_keys_of_mem {β : Type} {m : List (Str × β)} {k : Str} (v : β)
    (h : k ∈ m.map Prod.fst) : (setKey m k v).map Prod.fst = m.map Prod.fst := by
  induction m with
  | nil => cases h
  | cons p r ih =>
    obtain ⟨k0, v0⟩ := p
    by_cases h0 : k0 = k
    · subst h0
      simp [setKey]
    · have hmem : k ∈ r.map Prod.fst := by
        simp only [List.map_cons, List.mem_cons] at h
        rcases h with h | h
        · exact absurd h.symm h0
        · exact h
      simp only [setKey, if_neg h0, List.map_cons]
      rw [ih hmem]

theorem setKey_keys_of_not_mem {β : Type} {m : List (Str × β)} {k : Str} (v : β)
    (h : k ∉ m.map Prod.fst) : (setKey m k v).map Prod.fst = m.map Prod.fst ++ [k] := by
  induction m with
  | nil => rfl
  | cons p r ih =>
    obtain ⟨k0, v0⟩ := p
    by_cases h0 : k0 = k
    · subst h0
      exact absurd (List.mem_cons_self k0 (r.map Prod.fst)) h
    · have hmem : k ∉ r.map Prod.fst := by
        intro hm
        exact h (by simp [hm])
      simp only [setKey, if_neg h0, List.map_cons, List.cons_append]
      rw [ih hmem]

theorem mem_setKey {β : Type} {m : List (Str × β)} {k : Str} {v : β} {p : Str × β}
    (hnd : (m.map Prod.fst).Nodup) (h : p ∈ setKey m k v) :
    p = (k, v) ∨ (p ∈ m ∧ p.1 ≠ k) := by
  induction m with
  | nil =>
    simp only [setKey, List.mem_singleton] at h
    exact Or.inl h
  | cons q r ih =>
    obtain ⟨k0, v0⟩ := q
    simp only [List.map_cons, List.nodup_cons] at hnd
    simp only [setKey] at h
    by_cases h0 : k0 = k
    · subst h0
      rw [if_pos rfl] at h
      rcases List.mem_cons.1 h with rfl | h2
      · exact Or.inl rfl
      · right
        refine ⟨List.mem_cons_of_mem _ h2, ?_⟩
        intro he
        exact hnd.1 (he ▸ List.mem_map_of_mem Prod.fst h2)
    · rw [if_neg h0] at h
      rcases List.mem_cons.1 h with rfl | h2
      · exact Or.inr ⟨List.mem_cons_self _ _, h0⟩
      · rcases ih hnd.2 h2 with h3 | ⟨h3, h4⟩
        · exact Or.inl h3
        · exact Or.inr ⟨List.mem_cons_of_mem _ h3, h4⟩

/-! ## Canonical characterization of the accumulator map -/

/-- All entries the loop extracts, in input order. -/
def entriesOf (pfx : Str) (items : List TreeItem) : List Entry :=
  items.filterMap (classifyItem pfx)

/-- The name stream of the retained entries. -/
def namesOf (pfx : Str) (items : List TreeItem) : List Str :=
  (entriesOf pfx items).map Entry.name

/-- The entries contributing to one name. -/
def entriesFor (pfx : Str) (items : List TreeItem) (n : Str) : List Entry :=
  (entriesOf pfx items).filter (fun e => e.name == n)

/-- The RuleFile an entry contributes, when its category matched a marker. -/
def fileOfEntry (e : Entry) : Option RuleFile :=
  e.geo.map (fun g => ⟨e.path, e.fileType, g⟩)

/-- The accumulator a name ends up with, described directly from the input
list rather than through the fold. -/
def accOf (pfx : Str) (items : List TreeItem) (n : Str) : RuleAcc :=
  ⟨n,
   (entriesFor pfx items n).any (fun e => e.fileType == "binary".toList),
   (entriesFor pfx items n).any (fun e => e.fileType == "source".toList),
   (entriesFor pfx items n).any (fun e => e.geo == some ("geoip".toList)),
   (entriesFor pfx items n).any (fun e => e.geo == some ("geosite".toList)),
   (entriesFor pfx items n).filterMap fileOfEntry⟩

/-- The invariant tying the fold's accumulator map after a processed input
segment to the canonical description. -/
def MapInv (pfx : Str) (pref : List TreeItem) (m : List (Str × RuleAcc)) : Prop :=
  (m.map Prod.fst).Nodup ∧
  (∀ n, n ∈ m.map Prod.fst ↔ n ∈ namesOf pfx pref) ∧
  (∀ p ∈ m, p.2 = accOf pfx pref p.1)

theorem entriesOf_append_none {pfx : Str} {it : TreeItem} (pref : List TreeItem)
    (hc : classifyItem pfx it = none) :
    entriesOf pfx (pref ++ [it]) = entriesOf pfx pref := by
  simp [entriesOf, List.filterMap_append, hc]

theorem entriesOf_append_some {pfx : Str} {it : TreeItem} {e : Entry} (pref : List TreeItem)
    (hc : classifyItem pfx it = some e) :
    entriesOf pfx (pref ++ [it]) = entriesOf pfx pref ++ [e] := by
  simp [entriesOf, List.filterMap_append, hc]

theorem entriesFor_filter_ne {pfx : Str} {it : TreeItem} {e : Entry} (pref : List TreeItem)
    (hc : classifyItem pfx it = some e) {n : Str} (hne : n ≠ e.name) :
    entriesFor pfx (pref ++ [it]) n = entriesFor pfx pref n := by
  simp only [entriesFor, entriesOf_append_some pref hc, List.filter_append]
  have hb : (e.name == n) = false := beq_eq_false_iff_ne.2 (fun he => hne he.symm)
  have hone : [e].filter (fun x => x.name == n) = [] := by
    simp only [List.filter]
    rw [hb]
  rw [hone, List.append_nil]

theorem entriesFor_filter_eq {pfx : Str} {it : TreeItem} {e : Entry} (pref : List TreeItem)
    (hc : classifyItem pfx it = some e) :
    entriesFor pfx (pref ++ [it]) e.name = entriesFor pfx pref e.name ++ [e] := by
  simp only [entriesFor, entriesOf_append_some pref hc, List.filter_append]
  have : [e].filter (fun x => x.name == e.name) = [e] := by
    simp [List.filter]
  rw [this]

theorem accOf_append_ne {pfx : Str} {it : TreeItem} {e : Entry} (pref : List TreeItem)
    (hc : classifyItem pfx it = some e) {n : Str} (hne : n ≠ e.name) :
    accOf pfx (pref ++ [it]) n = accOf pfx pref n := by
  unfold accOf
  rw [entriesFor_filter_ne pref hc hne]

theorem accOf_append_eq {pfx : Str} {it : TreeItem} {e : Entry} (pref : List TreeItem)
    (hc : classifyItem pfx it = some e) :
    accOf pfx (pref ++ [it]) e.name = updAcc (accOf pfx pref e.name) e := by
  unfold accOf updAcc
  rw [entriesFor_filter_eq pref hc]
  have hfiles : List.filterMap fileOfEntry [e] =
      (match e.geo with
       | some g => [(⟨e.path, e.fileType, g⟩ : RuleFile)]
       | none => []) := by
    cases hg : e.geo with
    | none => simp [List.filterMap, fileOfEntry, hg]
    | some g => simp [List.filterMap, fileOfEntry, hg]
  simp only [List.any_append, List.any_cons, List.any_nil, Bool.or_false,
    List.filterMap_append]
  rw [hfiles]

theorem entriesFor_eq_nil {pfx : Str} {items : List TreeItem} {n : Str}
    (h : n ∉ namesOf pfx items) : entriesFor pfx items n = [] := by
  unfold entriesFor
  rw [List.filter_eq_nil_iff]
  intro e he
  simp only [beq_iff_eq]
  intro hne
  exact h (hne ▸ List.mem_map_of_mem Entry.name he)

theorem accOf_not_mem {pfx : Str} {items : List TreeItem} {n : Str}
    (h : n ∉ namesOf pfx items) : accOf pfx items n = newAcc n := by
  unfold accOf newAcc
  rw [entriesFor_eq_nil h]
  rfl

theorem stepRule_inv {pfx : Str} {pref : List TreeItem} {m : List (Str × RuleAcc)}
    (hinv : MapInv pfx pref m) (it : TreeItem) :
    MapInv pfx (pref ++ [it]) (stepRule pfx m it) := by
  obtain ⟨hnd, hmem, hval⟩ := hinv
  cases hc : classifyItem pfx it with
  | none =>
    have hn : namesOf pfx (pref ++ [it]) = namesOf pfx pref := by
      unfold namesOf
      rw [entriesOf_append_none pref hc]
    have ha : ∀ n, accOf pfx (pref ++ [it]) n = accOf pfx pref n := by
      intro n
      unfold accOf entriesFor
      rw [entriesOf_append_none pref hc]
    simp only [stepRule, hc]
    exact ⟨hnd, fun n => (hmem n).trans (by rw [hn]),
      fun p hp => (hval p hp).trans (ha p.1).symm⟩
  | some e =>
    have hnames : namesOf pfx (pref ++ [it]) = namesOf pfx pref ++ [e.name] := by
      unfold namesOf
      rw [entriesOf_append_some pref hc]
      simp
    have hold2 : (getKey m e.name).getD (newAcc e.name) = accOf pfx pref e.name := by
      cases hg : getKey m e.name with
      | some a =>
        have hma := hval _ (getKey_mem hg)
        simpa using hma
      | none =>
        have hni : e.name ∉ namesOf pfx pref := fun hmem2 =>
          (getKey_eq_none_iff.1 hg) ((hmem e.name).2 hmem2)
        rw [accOf_not_mem hni]
        rfl
    have hupd : updAcc ((getKey m e.name).getD (newAcc e.name)) e =
        accOf pfx (pref ++ [it]) e.name := by
      rw [accOf_append_eq pref hc, hold2]
    by_cases hin : e.name ∈ m.map Prod.fst
    · refine ⟨?_, ?_, ?_⟩
      · simp only [stepRule, hc]
        rw [setKey_keys_of_mem _ hin]
        exact hnd
      · intro n
        simp only [stepRule, hc]
        rw [setKey_keys_of_mem _ hin, hnames, hmem n]
        constructor
        · intro h
          exact List.mem_append_left _ h
        · intro h
          rcases List.mem_append.1 h with h | h
          · exact h
          · simp only [List.mem_singleton] at h
            subst h
            exact (hmem e.name).1 hin
      · intro p hp
        simp only [stepRule, hc] at hp
        rcases mem_setKey hnd hp with rfl | ⟨hpm, hpne⟩
        · exact hupd
        · rw [hval p hpm, accOf_append_ne pref hc hpne]
    · refine ⟨?_, ?_, ?_⟩
      · simp only [stepRule, hc]
        rw [setKey_keys_of_not_mem _ hin]
        refine List.Nodup.append hnd (List.nodup_singleton _) ?_
        intro a ha1 ha2
        simp only [List.mem_singleton] at ha2
        subst ha2
        exact hin ha1
      · intro n
        simp only [stepRule, hc]
        rw [setKey_keys_of_not_mem _ hin, hnames]
        simp only [List.mem_append, List.mem_singleton]
        rw [hmem n]
      · intro p hp
        simp only [stepRule, hc] at hp
        rcases mem_setKey hnd hp with rfl | ⟨hpm, hpne⟩
        · exact hupd
        · rw [hval p hpm, accOf_append_ne pref hc hpne]

theorem buildAccs_inv (pfx : Str) (items : List TreeItem) :
    ∀ (pref : List TreeItem) (m : List (Str × RuleAcc)), MapInv pfx pref m →
    MapInv pfx (pref ++ items) (items.foldl (stepRule pfx) m) := by
  induction items with
  | nil =>
    intro pref m h
    simpa using h
  | cons it rest ih =>
    intro pref m h
    have h3 := ih (pref ++ [it]) (stepRule pfx m it) (stepRule_inv h it)
    rw [List.append_assoc] at h3
    simpa using h3

theorem buildAccs_spec (items : List TreeItem) (pfx : Str) :
    MapInv pfx items (buildAccs items pfx) := by
  have hbase : MapInv pfx [] [] :=
    ⟨List.nodup_nil, by simp [namesOf, entriesOf], by simp⟩
  have h := buildAccs_inv pfx items [] [] hbase
  simpa [buildAccs] using h

theorem classifyItem_some_facts {pfx : Str} {it : TreeItem} {e : Entry}
    (h : classifyItem pfx it = some e) :
    it.type = "blob".toList ∧ e.path = it.path ∧
    e.name = stripRuleExt (((splitOnChar '/' (it.path.drop pfx.length))[1]?).getD []) := by
  by_cases h1 : it.type ≠ "blob".toList
  · simp only [classifyItem, if_pos h1] at h
    cases h
  · by_cases h2 : ¬ startsW pfx it.path = true
    · simp only [classifyItem, if_neg h1, if_pos h2] at h
      cases h
    · cases hft : (if endsW ".srs".toList (it.path.drop pfx.length) then
          some ("binary".toList)
        else if endsW ".json".toList (it.path.drop pfx.length) then
          some ("source".toList)
        else none) with
      | none =>
        simp only [classifyItem, if_neg h1, if_neg h2, hft] at h
        cases h
      | some ft =>
        by_cases h4 : (splitOnChar '/' (it.path.drop pfx.length)).length < 2
        · simp only [classifyItem, if_neg h1, if_neg h2, hft, if_pos h4] at h
          cases h
        · simp only [classifyItem, if_neg h1, if_neg h2, hft, if_neg h4,
            Option.some.injEq] at h
          subst h
          exact ⟨not_not.1 h1, rfl, rfl⟩

theorem classifyItem_path_det {pfx : Str} {it1 it2 : TreeItem} {e1 e2 : Entry}
    (h1 : classifyItem pfx it1 = some e1) (h2 : classifyItem pfx it2 = some e2)
    (hpp : e1.path = e2.path) : e1 = e2 := by
  obtain ⟨ht1, hp1, _⟩ := classifyItem_some_facts h1
  obtain ⟨ht2, hp2, _⟩ := classifyItem_some_facts h2
  have hit : it1 = it2 := by
    obtain ⟨t1, p1⟩ := it1
    obtain ⟨t2, p2⟩ := it2
    simp only at ht1 ht2 hp1 hp2
    rw [TreeItem.mk.injEq]
    constructor
    · rw [ht1, ht2]
    · rw [← hp1, ← hp2, hpp]
  subst hit
  rw [h1] at h2
  injection h2

theorem filesFor_path_det {pfx : Str} {items : List TreeItem} {n : Str} :
    ∀ f1 ∈ (entriesFor pfx items n).filterMap fileOfEntry,
    ∀ f2 ∈ (entriesFor pfx items n).filterMap fileOfEntry,
    f1.path = f2.path → f1 = f2 := by
  intro f1 hf1 f2 hf2 hpp
  obtain ⟨e1, he1, hfe1⟩ := List.mem_filterMap.1 hf1
  obtain ⟨e2, he2, hfe2⟩ := List.mem_filterMap.1 hf2
  obtain ⟨g1, hg1, hb1⟩ := Option.map_eq_some'.1 hfe1
  obtain ⟨g2, hg2, hb2⟩ := Option.map_eq_some'.1 hfe2
  have hef1 : e1 ∈ entriesOf pfx items := (List.mem_filter.1 he1).1
  have hef2 : e2 ∈ entriesOf pfx items := (List.mem_filter.1 he2).1
  obtain ⟨it1, _, hc1⟩ := List.mem_filterMap.1 hef1
  obtain ⟨it2, _, hc2⟩ := List.mem_filterMap.1 hef2
  have hpe : e1.path = e2.path := by
    have hfp1 : f1.path = e1.path := by rw [← hb1]
    have hfp2 : f2.path = e2.path := by rw [← hb2]
    rw [← hfp1, ← hfp2, hpp]
  have he12 : e1 = e2 := classifyItem_path_det hc1 hc2 hpe
  subst he12
  rw [hg1] at hg2
  injection hg2 with hg3
  rw [← hb1, ← hb2, hg3]

theorem perm_any {α : Type} {l1 l2 : List α} (hp : l1.Perm l2) (P : α → Bool) :
    l1.any P = l2.any P := by
  cases h1 : l1.any P with
  | true =>
    obtain ⟨x, hx, hPx⟩ := List.any_eq_true.1 h1
    exact (List.any_eq_true.2 ⟨x, hp.mem_iff.1 hx, hPx⟩).symm
  | false =>
    cases h2 : l2.any P with
    | false => rfl
    | true =>
      obtain ⟨x, hx, hPx⟩ := List.any_eq_true.1 h2
      have h3 : l1.any P = true := List.any_eq_true.2 ⟨x, hp.mem_iff.2 hx, hPx⟩
      rw [h1] at h3
      cases h3

theorem fileLe_trans {a b c : RuleFile} (h1 : fileLe a b = true) (h2 : fileLe b c = true) :
    fileLe a c = true := lexLe_trans h1 h2

theorem fileLe_total (a b : RuleFile) : fileLe a b = true ∨ fileLe b a = true :=
  lexLe_total a.path b.path

theorem recLe_trans {a b c : RuleRecord} (h1 : recLe a b = true) (h2 : recLe b c = true) :
    recLe a c = true := lexLe_trans h1 h2

theorem recLe_total (a b : RuleRecord) : recLe a b = true ∨ recLe b a = true :=
  lexLe_total a.name b.name

theorem resolveAcc_accOf_perm {items1 items2 : List TreeItem} (pfx : Str)
    (hp : items1.Perm items2) (n : Str) :
    resolveAcc (accOf pfx items1 n) = resolveAcc (accOf pfx items2 n) := by
  have hperm : (entriesFor pfx items1 n).Perm (entriesFor pfx items2 n) :=
    (hp.filterMap _).filter _
  have hb := perm_any hperm (fun e => e.fileType == "binary".toList)
  have hs := perm_any hperm (fun e => e.fileType == "source".toList)
  have hgi := perm_any hperm (fun e => e.geo == some ("geoip".toList))
  have hgs := perm_any hperm (fun e => e.geo == some ("geosite".toList))
  have hfilesperm : ((entriesFor pfx items1 n).filterMap fileOfEntry).Perm
      ((entriesFor pfx items2 n).filterMap fileOfEntry) := hperm.filterMap _
  have hfiles : sortLe fileLe ((entriesFor pfx items1 n).filterMap fileOfEntry) =
      sortLe fileLe ((entriesFor pfx items2 n).filterMap fileOfEntry) := by
    apply sorted_perm_eq
    · exact ((perm_sortLe _ _).trans hfilesperm).trans (perm_sortLe _ _).symm
    · exact pairwise_sortLe fileLe (fun a b c hab hbc => fileLe_trans hab hbc) fileLe_total _
    · exact pairwise_sortLe fileLe (fun a b c hab hbc => fileLe_trans hab hbc) fileLe_total _
    · intro a ha b hb2 hab hba
      have ha2 := (perm_sortLe fileLe _).mem_iff.1 ha
      have hb3 := (perm_sortLe fileLe _).mem_iff.1 hb2
      exact filesFor_path_det a ha2 b hb3 (lexLe_antisymm hab hba)
  unfold resolveAcc resolveFileType resolveGeoType
  simp only [accOf, hb, hs, hgi, hgs, hfiles]

theorem buildRules_records_eq (items : List TreeItem) (pfx : Str) :
    (buildAccs items pfx).map (fun p => resolveAcc p.2) =
    ((buildAccs items pfx).map Prod.fst).map (fun n => resolveAcc (accOf pfx items n)) := by
  obtain ⟨_, _, hval⟩ := buildAccs_spec items pfx
  rw [List.map_map]
  apply List.map_congr_left
  intro p hp
  simp only [Function.comp]
  rw [hval p hp]

/-- C5: the rule indexer is deterministic under input reordering — for any
two permutations of the same path list it produces identical output, with
records sorted lexicographically by name and each record's file list
sorted lexicographically by path (so the serialized output is
byte-identical regardless of input ordering). -/
theorem buildRulesIndex_deterministic (items1 items2 : List TreeItem) (pfx : Str)
    (hp : items1.Perm items2) :
    buildRulesIndex items1 pfx = buildRulesIndex items2 pfx ∧
    (buildRulesIndex items1 pfx).Pairwise (fun a b => recLe a b = true) ∧
    (∀ r ∈ buildRulesIndex items1 pfx, r.files.Pairwise (fun a b => fileLe a b = true)) := by
  refine ⟨?_, ?_, ?_⟩
  · unfold buildRulesIndex
    apply sorted_perm_eq
    · refine ((perm_sortLe _ _).trans ?_).trans (perm_sortLe _ _).symm
      rw [buildRules_records_eq items1 pfx, buildRules_records_eq items2 pfx]
      have hkeys : ((buildAccs items1 pfx).map Prod.fst).Perm
          ((buildAccs items2 pfx).map Prod.fst) := by
        obtain ⟨hnd1, hmem1, _⟩ := buildAccs_spec items1 pfx
        obtain ⟨hnd2, hmem2, _⟩ := buildAccs_spec items2 pfx
        refine (List.perm_ext_iff_of_nodup hnd1 hnd2).2 ?_
        intro n
        rw [hmem1 n, hmem2 n]
        exact ((hp.filterMap _).map _).mem_iff
      have heq : ((buildAccs items2 pfx).map Prod.fst).map
            (fun n => resolveAcc (accOf pfx items1 n)) =
          ((buildAccs items2 pfx).map Prod.fst).map
            (fun n => resolveAcc (accOf pfx items2 n)) :=
        List.map_congr_left (fun n _ => resolveAcc_accOf_perm pfx hp n)
      exact heq ▸ (hkeys.map _)
    · exact pairwise_sortLe recLe (fun a b c hab hbc => recLe_trans hab hbc) recLe_total _
    · exact pairwise_sortLe recLe (fun a b c hab hbc => recLe_trans hab hbc) recLe_total _
    · intro a ha b hb hab hba
      have ha2 := (perm_sortLe recLe _).mem_iff.1 ha
      have hb2 := (perm_sortLe recLe _).mem_iff.1 hb
      rw [buildRules_records_eq items1 pfx] at ha2 hb2
      obtain ⟨n1, _, ha3⟩ := List.mem_map.1 ha2
      obtain ⟨n2, _, hb3⟩ := List.mem_map.1 hb2
      have hname : a.name = b.name := lexLe_antisymm hab hba
      have han : a.name = n1 := by
        rw [← ha3]
        rfl
      have hbn : b.name = n2 := by
        rw [← hb3]
        rfl
      have hn12 : n1 = n2 := by
        rw [← han, ← hbn, hname]
      rw [← ha3, ← hb3, hn12]
  · exact pairwise_sortLe recLe (fun a b c hab hbc => recLe_trans hab hbc) recLe_total _
  · intro r hr
    have hr2 := (perm_sortLe recLe _).mem_iff.1 hr
    obtain ⟨p, _, hrp⟩ := List.mem_map.1 hr2
    rw [← hrp]
    exact pairwise_sortLe fileLe (fun a b c hab hbc => fileLe_trans hab hbc) fileLe_total _

def itemsW5a : List TreeItem :=
  [⟨"blob".toList, "geo/geoip/cn.srs".toList⟩,
   ⟨"blob".toList, "geo/geosite/ads.json".toList⟩]

def itemsW5b : List TreeItem :=
  [⟨"blob".toList, "geo/geosite/ads.json".toList⟩,
   ⟨"blob".toList, "geo/geoip/cn.srs".toList⟩]

/-- Witness for C5: the two orderings of a concrete two-file listing. -/
theorem buildRulesIndex_deterministic_witness :
    buildRulesIndex itemsW5a "geo/".toList = buildRulesIndex itemsW5b "geo/".toList ∧
    (buildRulesIndex itemsW5a "geo/".toList).Pairwise (fun a b => recLe a b = true) ∧
    (∀ r ∈ buildRulesIndex itemsW5a "geo/".toList,
      r.files.Pairwise (fun a b => fileLe a b = true)) :=
  buildRulesIndex_deterministic itemsW5a itemsW5b "geo/".toList (List.Perm.swap _ _ _)

/-- C6 (amended): every record of the built index takes its name from some
retained input item, and that name is the second segment of the
prefix-stripped path minus a recognized extension; it equals the filename
(final segment) minus the extension only when exactly two segments
remain. -/
theorem ruleRecord_name_second_segment (items : List TreeItem) (pfx : Str)
    (r : RuleRecord) (h : r ∈ buildRulesIndex items pfx) :
    ∃ it ∈ items, ∃ e, classifyItem pfx it = some e ∧ r.name = e.name ∧
      e.name = stripRuleExt (((splitOnChar '/' (it.path.drop pfx.length))[1]?).getD []) := by
  obtain ⟨hnd, hmem, hval⟩ := buildAccs_spec items pfx
  have h2 := (perm_sortLe recLe _).mem_iff.1 h
  obtain ⟨p, hp, hrp⟩ := List.mem_map.1 h2
  have hpn : p.1 ∈ namesOf pfx items := (hmem p.1).1 (List.mem_map_of_mem Prod.fst hp)
  obtain ⟨e, he, hen⟩ := List.mem_map.1 hpn
  obtain ⟨it, hit, hcl⟩ := List.mem_filterMap.1 he
  refine ⟨it, hit, e, hcl, ?_, (classifyItem_some_facts hcl).2.2⟩
  rw [← hrp, hval p hp, hen]
  rfl

/-- Follows the spec's words, for comparison with the code: the logical
name the spec describes is the path's final segment (the filename) minus
its recognized extension. -/
def specLogicalName (relPath : Str) : Str :=
  stripRuleExt (((splitOnChar '/' relPath).getLast?).getD [])

/-- Counterexample for C6 as stated: for a retained path whose stripped
relative path has three segments, the record's name is the second segment
(extra), not the final segment minus its extension (cn) as the claim
says. -/
theorem ruleRecord_name_not_final_segment :
    (buildRulesIndex [⟨"blob".toList, "geo/geoip/extra/cn.srs".toList⟩] "geo/".toList).map
      RuleRecord.name = ["extra".toList] ∧
    specLogicalName "geoip/extra/cn.srs".toList = "cn".toList ∧
    ("extra".toList : Str) ≠ "cn".toList :=
  ⟨by decide, by decide, by decide⟩

def itemsW6 : List TreeItem := [⟨"blob".toList, "geo/geoip/cn.srs".toList⟩]

def recW6 : RuleRecord := ⟨"cn".toList, "binary".toList, "geoip".toList,
  [⟨"geo/geoip/cn.srs".toList, "binary".toList, "geoip".toList⟩]⟩

/-- Witness for the amended C6: for the two-segment path geoip/cn.srs the
record's name cn is the second segment minus the extension (which here is
also the filename minus the extension). -/
theorem ruleRecord_name_second_segment_witness :
    ∃ it ∈ itemsW6, ∃ e, classifyItem "geo/".toList it = some e ∧ recW6.name = e.name ∧
      e.name = stripRuleExt
        (((splitOnChar '/' (it.path.drop ("geo/".toList).length))[1]?).getD []) :=
  ruleRecord_name_second_segment itemsW6 "geo/".toList recW6 (by decide)
